import Mathlib

/-!
Verification of the coffee-price history reconciliation core.

The development embeds, as executable Lean definitions, the two Python
pipelines of the repository:

* `Cepea` models `scripts/coletar_cafe_cepea.py`: the `dedup` merge
  (concatenate the persisted history with freshly scraped candidate
  records, keep one record per identity key, sort), the
  `update_price_summary` derivation of the compact summary document,
  and the `load_history` / `main` handling of malformed persisted
  history content.
* `ScrapePrices` models `scrape_prices.py`: the `update_history`
  rolling-history update with its ten-date retention window, and the
  `is_market_open` flag.

Records are modelled field by field after the JSON objects the scripts
build; `valor` is modelled as a rational number since the reconciliation
core only copies it and never computes with it.  Timestamps and dates
stay the strings the scripts compare; Python compares strings
lexicographically by code point, which is the lexicographic order on
their character lists, so every string comparison of the source is
embedded as the order on `String.data`.
-/

namespace Cepea

/-- One history record, as built by `parse_hist_from_text` /
`extract_with_openai`: fields `produto`, `tipo`, `moeda`, `valor`,
`referente_a` (possibly `null`), `fonte_url`, `coletado_em`. -/
structure Row where
  produto : String
  tipo : String
  moeda : String
  valor : ℚ
  referente_a : Option String
  fonte_url : String
  coletado_em : String
deriving DecidableEq

/-- The effective date of a record: `r.get("referente_a") or
r["coletado_em"][:10]`.  Python's `or` falls through both on `None` and
on the empty string, so both cases take the first ten characters of the
collection timestamp. -/
def effDate (r : Row) : String :=
  match r.referente_a with
  | none => r.coletado_em.take 10
  | some s => if s = "" then r.coletado_em.take 10 else s

/-- The identity key of `dedup`:
`(r.get("produto"), r.get("tipo"), r.get("referente_a") or r["coletado_em"][:10])`. -/
abbrev Key := String × String × String

def key (r : Row) : Key := (r.produto, r.tipo, effDate r)

/-- Lookup in an insertion-ordered association list, the model of a
Python `dict` (`d.get(key)`). -/
def findVal {α β : Type} [DecidableEq α] (k : α) : List (α × β) → Option β
  | [] => none
  | p :: rest => if p.1 = k then some p.2 else findVal k rest

/-- Store into an insertion-ordered association list, the model of a
Python `dict` assignment `d[key] = v`: an existing key keeps its
position, a new key is appended. -/
def setVal {α β : Type} [DecidableEq α] (k : α) (v : β) : List (α × β) → List (α × β)
  | [] => [(k, v)]
  | p :: rest => if p.1 = k then (k, v) :: rest else p :: setVal k v rest

/-- One iteration of the `dedup` loop: keep the stored record unless the
incoming one has a strictly greater `coletado_em`
(`if not prev or r["coletado_em"] > prev["coletado_em"]: d[key] = r`). -/
def dedupStep (d : List (Key × Row)) (r : Row) : List (Key × Row) :=
  match findVal (key r) d with
  | none => setVal (key r) r d
  | some prev =>
      if prev.coletado_em.data < r.coletado_em.data then setVal (key r) r d else d

/-- The dictionary `d` built by `dedup`'s loop over `rows`. -/
def dedupDict (rows : List Row) : List (Key × Row) := rows.foldl dedupStep []

/-- The sort key of `dedup`'s final `sorted(...)` call:
`((x.get("referente_a") or ""), x.get("tipo", ""), x["coletado_em"])`,
compared as Python compares tuples of strings, i.e. lexicographically. -/
def sortKey (r : Row) : List Char ×ₗ List Char ×ₗ List Char :=
  toLex ((r.referente_a.getD "").data, toLex (r.tipo.data, r.coletado_em.data))

def sortLE (a b : Row) : Prop := sortKey a ≤ sortKey b

instance : DecidableRel sortLE :=
  fun a b => inferInstanceAs (Decidable (sortKey a ≤ sortKey b))

instance : IsTotal Row sortLE := ⟨fun a b => le_total (sortKey a) (sortKey b)⟩

instance : IsTrans Row sortLE := ⟨fun _ _ _ hab hbc => le_trans hab hbc⟩

/-- `dedup(rows)` of `coletar_cafe_cepea.py`: fold the rows into a
dictionary keyed by the identity key, keeping per key the record with
the greatest `coletado_em`, then sort the dictionary's values. -/
def dedup (rows : List Row) : List Row :=
  List.insertionSort sortLE ((dedupDict rows).map Prod.snd)

/-- The `cafe` object of the summary document `data/prices.json`:
`date`, `arabica`, `robusta`, plus whatever other keys a previous
producer stored in it (modelled opaquely as key/value text pairs). -/
structure CafeObj where
  date : Option String
  arabica : Option ℚ
  robusta : Option ℚ
  restCafe : List (String × String)
deriving DecidableEq

/-- The summary document: its `cafe` object plus all unrelated top-level
keys from other producers (modelled opaquely).  A missing or corrupt
summary file loads as `emptySummary`. -/
structure Summary where
  cafe : CafeObj
  restTop : List (String × String)
deriving DecidableEq

def emptySummary : Summary := ⟨⟨none, none, none, []⟩, []⟩

/-- One iteration of `update_price_summary`'s loop building `latest`:
for a `"cafe"` row, store `(ref_date, valor)` under its `tipo` unless an
entry with a `ref_date` at least as large is already stored
(`if tipo not in latest or ref_date > latest[tipo]["ref_date"]`). -/
def latestStep (d : List (String × String × ℚ)) (r : Row) : List (String × String × ℚ) :=
  if r.produto = "cafe" then
    let rd := effDate r
    match findVal r.tipo d with
    | none => setVal r.tipo (rd, r.valor) d
    | some e => if e.1.data < rd.data then setVal r.tipo (rd, r.valor) d else d
  else d

/-- The `latest` dictionary of `update_price_summary` after its loop. -/
def latestMap (rows : List Row) : List (String × String × ℚ) :=
  rows.foldl latestStep []

/-- The date `update_price_summary` chooses: the later of the variants'
dates when both are present (`latest["arabica"]["ref_date"] if ... >= ...
else latest["conillon"]["ref_date"]`), else whichever exists. -/
def summaryDate : Option (String × ℚ) → Option (String × ℚ) → Option String
  | some ea, some ec => some (if ec.1.data ≤ ea.1.data then ea.1 else ec.1)
  | some ea, none => some ea.1
  | none, some ec => some ec.1
  | none, none => none

/-- `if date: cafe["date"] = date` — skipped for `None` and for the
empty string, both falsy in Python. -/
def applyDate (cafe : CafeObj) : Option String → CafeObj
  | some dd =>
      if dd = "" then cafe else ⟨some dd, cafe.arabica, cafe.robusta, cafe.restCafe⟩
  | none => cafe

/-- `if "arabica" in latest: cafe["arabica"] = latest["arabica"]["valor"]`. -/
def applyArabica (cafe : CafeObj) : Option (String × ℚ) → CafeObj
  | some ea => ⟨cafe.date, some ea.2, cafe.robusta, cafe.restCafe⟩
  | none => cafe

/-- `if "conillon" in latest: cafe["robusta"] = latest["conillon"]["valor"]`. -/
def applyRobusta (cafe : CafeObj) : Option (String × ℚ) → CafeObj
  | some ec => ⟨cafe.date, cafe.arabica, some ec.2, cafe.restCafe⟩
  | none => cafe

/-- `update_price_summary(rows)` of `coletar_cafe_cepea.py`, as a pure
function of the rows and the previously persisted summary document:
build `latest`, conditionally set `cafe["date"]`, `cafe["arabica"]` and
`cafe["robusta"]` on the previous document's `cafe` object, store it
back under `"cafe"`, and leave every other part of the document
unchanged. -/
def update_price_summary (rows : List Row) (prev : Summary) : Summary :=
  ⟨applyRobusta
      (applyArabica
        (applyDate prev.cafe
          (summaryDate (findVal "arabica" (latestMap rows))
            (findVal "conillon" (latestMap rows))))
        (findVal "arabica" (latestMap rows)))
      (findVal "conillon" (latestMap rows)),
    prev.restTop⟩

/-- An element of a parsed history sequence: either a well-formed record
or the empty JSON object `{}`, which has none of the record's fields. -/
inductive Item where
  | good (r : Row)
  | emptyObj
deriving DecidableEq

/-- The possible shapes of the persisted history file's content: absent,
text that is not valid JSON, valid JSON that is not a sequence, or a
JSON sequence of items. -/
inductive HistDoc where
  | missing
  | unparseable
  | nonList
  | jlist (items : List Item)
deriving DecidableEq

inductive Loaded where
  | asList (items : List Item)
  | notList
deriving DecidableEq

/-- `load_history` of `coletar_cafe_cepea.py`: a missing file or a JSON
parse failure yields `[]`; otherwise the parsed value is returned as is
(possibly not a list). -/
def load_history : HistDoc → Loaded
  | .missing => .asList []
  | .unparseable => .asList []
  | .nonList => .notList
  | .jlist l => .asList l

/-- The `rows` of `main` after `if not isinstance(rows, list): rows = []`. -/
def mainRows (doc : HistDoc) : List Item :=
  match load_history doc with
  | .asList l => l
  | .notList => []

/-- Reading the loaded items as records: the empty object raises a
`KeyError` when `dedup` evaluates `r["coletado_em"]` on it (its
`referente_a` is absent, so Python's `or` reaches the subscript), which
aborts the run. -/
def rowsOfItems : List Item → Except Unit (List Row)
  | [] => .ok []
  | .good r :: rest => (rowsOfItems rest).map (fun l => r :: l)
  | .emptyObj :: _ => .error ()

/-- The merge performed by `main`: load the persisted history, append
the freshly scraped candidate rows, and `dedup` the result; an
ill-formed item aborts with an error instead of producing a history. -/
def mainMerge (doc : HistDoc) (cands : List Row) : Except Unit (List Row) :=
  match rowsOfItems (mainRows doc) with
  | .error e => .error e
  | .ok hs => .ok (dedup (hs ++ cands))

end Cepea

namespace ScrapePrices

/-- One entry of the `precos.json` history as `update_history` builds it. -/
structure SRow where
  referente_a : String
  coletado_em : String
  produto : String
  tipo : String
  valor : ℚ
  unidade : String
  moeda : String
deriving DecidableEq

/-- The aspects of a Python `datetime` that `is_market_open` reads:
`weekday()` (Monday = 0 … Sunday = 6) and `hour` (local, 0 … 23). -/
structure PyDatetime where
  weekday : Nat
  hour : Nat
deriving DecidableEq

/-- `is_market_open(now)` of `scrape_prices.py`:
`now.weekday() < 5 and 8 <= now.hour < 17`. -/
def is_market_open (now : PyDatetime) : Bool :=
  decide (now.weekday < 5) && (decide (8 ≤ now.hour) && decide (now.hour < 17))

/-- The two records `update_history` appends for the current run. -/
def newRecords (ap cp : ℚ) (ra ts : String) : List SRow :=
  [⟨ra, ts, "cafe", "arabica", ap, "saca", "BRL"⟩,
   ⟨ra, ts, "cafe", "conillon", cp, "saca", "BRL"⟩]

/-- The working history of `update_history` after the comprehension that
removes existing entries with the current date
(`record.get("referente_a") == referente_a and record.get("produto") == "cafe"`)
and after appending the two new records. -/
def combined (history : List SRow) (ap cp : ℚ) (ra ts : String) : List SRow :=
  (history.filter fun r => !(decide (r.referente_a = ra ∧ r.produto = "cafe")))
    ++ newRecords ap cp ra ts

/-- The distinct `referente_a` values of a history, in first-occurrence
order — the keys of `update_history`'s `by_date` dictionary. -/
def histDates (l : List SRow) : List String :=
  (l.map fun r => r.referente_a).dedup

/-- Descending string order, the order of
`sorted(by_date.keys(), reverse=True)`. -/
def dateGE (a b : String) : Prop := b.data ≤ a.data

instance : DecidableRel dateGE :=
  fun a b => inferInstanceAs (Decidable (b.data ≤ a.data))

instance : IsTotal String dateGE := ⟨fun a b => (le_total a.data b.data).symm⟩

instance : IsTrans String dateGE := ⟨fun _ _ _ hab hbc => le_trans hbc hab⟩

/-- The dates `update_history` keeps: the first ten in descending order
(`dates_sorted[:10]`). -/
def keep_dates (l : List SRow) : List String :=
  (List.insertionSort dateGE (histDates l)).take 10

/-- Order of one day's records: `sorted(..., key=lambda r: r.get("tipo", ""))`. -/
def tipoLE (a b : SRow) : Prop := a.tipo.data ≤ b.tipo.data

instance : DecidableRel tipoLE :=
  fun a b => inferInstanceAs (Decidable (a.tipo.data ≤ b.tipo.data))

instance : IsTotal SRow tipoLE := ⟨fun a b => le_total a.tipo.data b.tipo.data⟩

instance : IsTrans SRow tipoLE := ⟨fun _ _ _ hab hbc => le_trans hab hbc⟩

/-- `update_history` of `scrape_prices.py` (its pure part, once the
trade date has been normalised to `referente_a` and the collection
timestamp formatted to `iso_ts`): drop the current date's coffee
entries, append the two fresh records, group by `referente_a`, keep the
ten most recent dates, and emit each kept day's records sorted by
`tipo`, days in descending date order. -/
def update_history (history : List SRow) (ap cp : ℚ) (ra ts : String) : List SRow :=
  (keep_dates (combined history ap cp ra ts)).flatMap fun d =>
    List.insertionSort tipoLE
      ((combined history ap cp ra ts).filter fun r => decide (r.referente_a = d))

end ScrapePrices

namespace Cepea

/-- Modelled from the spec (for comparison with `sortLE`, the order the
code uses): ascending by the triple `(effective_date, variant,
collected_at)`, where the effective date falls back to the calendar
date of `collected_at` when the reference date is absent. -/
def specClaimedKey (r : Row) : List Char ×ₗ List Char ×ₗ List Char :=
  toLex ((effDate r).data, toLex (r.tipo.data, r.coletado_em.data))

def specClaimedLE (a b : Row) : Prop := specClaimedKey a ≤ specClaimedKey b

instance : DecidableRel specClaimedLE :=
  fun a b => inferInstanceAs (Decidable (specClaimedKey a ≤ specClaimedKey b))

end Cepea

namespace Examples

/-- A candidate record with the given reference date, for concrete
evaluations of `dedup`. -/
def exRow (d : String) : Cepea.Row := ⟨"cafe", "arabica", "BRL", 2277, some d, "u", "T1"⟩

/-- Eleven candidate records bearing eleven distinct reference dates. -/
def elevenRows : List Cepea.Row :=
  [exRow "d01", exRow "d02", exRow "d03", exRow "d04", exRow "d05", exRow "d06",
   exRow "d07", exRow "d08", exRow "d09", exRow "d10", exRow "d11"]

/-- An undated record collected in 2025 and a dated record for
2020-01-01. -/
def undatedRow : Cepea.Row :=
  ⟨"cafe", "arabica", "BRL", 1, none, "u", "2025-09-05T12:00:00+00:00"⟩

def datedRow : Cepea.Row :=
  ⟨"cafe", "arabica", "BRL", 2, some "2020-01-01", "u", "2019-12-31T12:00:00+00:00"⟩

/-- The spec's §8 merge example: a persisted record and a fresh
candidate for the same key, collected later. -/
def histRow : Cepea.Row :=
  ⟨"cafe", "arabica", "BRL", 2270, some "2025-09-04", "u", "2025-09-04T18:00:00+00:00"⟩

def candRow : Cepea.Row :=
  ⟨"cafe", "arabica", "BRL", 2277, some "2025-09-04", "u", "2025-09-05T18:00:00+00:00"⟩

/-- A two-record history that is deduplicated, trimmed and sorted. -/
def twoRowHistory : List Cepea.Row := [histRow, exRow "2025-09-05"]

/-- Two undated records for the same variant, collected on the same
calendar day and on different days. -/
def undatedSameDayA : Cepea.Row :=
  ⟨"cafe", "arabica", "BRL", 1, none, "u", "2025-09-05T08:00:00+00:00"⟩

def undatedSameDayB : Cepea.Row :=
  ⟨"cafe", "arabica", "BRL", 2, none, "u", "2025-09-05T18:00:00+00:00"⟩

def undatedOtherDay : Cepea.Row :=
  ⟨"cafe", "arabica", "BRL", 3, none, "u", "2025-09-06T08:00:00+00:00"⟩

/-- Concrete rows for the summary claims: an arabica record and a
conillon record with disagreeing reference dates. -/
def arabicaRow : Cepea.Row :=
  ⟨"cafe", "arabica", "BRL", 2277, some "2025-09-05", "u", "2025-09-05T18:00:00+00:00"⟩

def conillonRow : Cepea.Row :=
  ⟨"cafe", "conillon", "BRL", 1402, some "2025-09-04", "u", "2025-09-05T18:00:00+00:00"⟩

/-- A previously persisted summary holding a `robusta` value, a `date`
and unrelated keys. -/
def prevSummary : Cepea.Summary :=
  ⟨⟨some "2025-09-01", some 2200, some 1400, [("extraCafe", "x")]⟩, [("cacau", "y")]⟩

/-- An existing ten-date history for `update_history`. -/
def exSRow (d : String) : ScrapePrices.SRow := ⟨d, "T0", "cafe", "arabica", 100, "saca", "BRL"⟩

def tenDayHistory : List ScrapePrices.SRow :=
  [exSRow "d01", exSRow "d02", exSRow "d03", exSRow "d04", exSRow "d05",
   exSRow "d06", exSRow "d07", exSRow "d08", exSRow "d09", exSRow "d10"]

end Examples

theorem string_data_inj {a b : String} (h : a.data = b.data) : a = b := by
  cases a
  cases b
  exact congrArg String.mk h

namespace Cepea

theorem findVal_setVal_self {α β : Type} [DecidableEq α] (k : α) (v : β) :
    ∀ d : List (α × β), findVal k (setVal k v d) = some v
  | [] => by simp [findVal, setVal]
  | p :: rest => by
    by_cases h : p.1 = k
    · simp [setVal, h, findVal]
    · simp [setVal, h, findVal, findVal_setVal_self k v rest]

theorem findVal_setVal_ne {α β : Type} [DecidableEq α] {k' k : α} (v : β) (hne : k' ≠ k) :
    ∀ d : List (α × β), findVal k' (setVal k v d) = findVal k' d
  | [] => by
    have h1 : ¬ k = k' := fun h => hne h.symm
    simp [findVal, setVal, h1]
  | p :: rest => by
    by_cases h : p.1 = k
    · have h1 : ¬ k = k' := fun hh => hne hh.symm
      have h2 : ¬ p.1 = k' := by rw [h]; exact h1
      simp [setVal, h, findVal, h1, h2]
    · simp [setVal, h, findVal, findVal_setVal_ne v hne rest]

theorem mem_setVal {α β : Type} [DecidableEq α] {p : α × β} (k : α) (v : β) :
    ∀ d : List (α × β), p ∈ setVal k v d → p = (k, v) ∨ p ∈ d
  | [] => by
    intro hp
    simp only [setVal, List.mem_singleton] at hp
    exact Or.inl hp
  | q :: rest => by
    intro hp
    by_cases h : q.1 = k
    · rw [setVal, if_pos h] at hp
      rcases List.mem_cons.mp hp with h1 | h1
      · exact Or.inl h1
      · exact Or.inr (List.mem_cons_of_mem q h1)
    · rw [setVal, if_neg h] at hp
      rcases List.mem_cons.mp hp with h1 | h1
      · exact Or.inr (h1 ▸ List.mem_cons_self q rest)
      · rcases mem_setVal k v rest h1 with h2 | h2
        · exact Or.inl h2
        · exact Or.inr (List.mem_cons_of_mem q h2)

theorem findVal_eq_none_iff {α β : Type} [DecidableEq α] (k : α) :
    ∀ d : List (α × β), findVal k d = none ↔ k ∉ d.map Prod.fst
  | [] => by simp [findVal]
  | p :: rest => by
    by_cases h : p.1 = k
    · constructor
      · intro hf
        rw [findVal, if_pos h] at hf
        exact absurd hf (by simp)
      · intro hm
        exact absurd (by simp [h] : k ∈ (p :: rest).map Prod.fst) hm
    · rw [findVal, if_neg h, List.map_cons, findVal_eq_none_iff k rest]
      constructor
      · intro hm hmem
        rcases List.mem_cons.mp hmem with h1 | h1
        · exact h h1.symm
        · exact hm h1
      · intro hm h1
        exact hm (List.mem_cons_of_mem _ h1)

theorem map_fst_setVal_of_mem {α β : Type} [DecidableEq α] (k : α) (v : β) :
    ∀ d : List (α × β), k ∈ d.map Prod.fst →
      (setVal k v d).map Prod.fst = d.map Prod.fst
  | [], h => by simp at h
  | p :: rest, h => by
    by_cases hk : p.1 = k
    · simp [setVal, hk]
    · have : k ∈ rest.map Prod.fst := by
        rcases List.mem_map.mp h with ⟨q, hq, hq1⟩
        rcases List.mem_cons.mp hq with rfl | hq2
        · exact absurd hq1 hk
        · exact List.mem_map.mpr ⟨q, hq2, hq1⟩
      simp [setVal, hk, map_fst_setVal_of_mem k v rest this]

theorem setVal_of_not_mem {α β : Type} [DecidableEq α] (k : α) (v : β) :
    ∀ d : List (α × β), k ∉ d.map Prod.fst → setVal k v d = d ++ [(k, v)]
  | [], _ => by simp [setVal]
  | p :: rest, h => by
    have h1 : ¬ p.1 = k := fun hh => h (by simp [hh])
    have h2 : k ∉ rest.map Prod.fst := fun hh => h (by simp [hh])
    simp [setVal, h1, setVal_of_not_mem k v rest h2]

theorem findVal_mem {α β : Type} [DecidableEq α] {k : α} {v : β} :
    ∀ {d : List (α × β)}, findVal k d = some v → (k, v) ∈ d
  | [], h => by simp [findVal] at h
  | p :: rest, h => by
    by_cases hk : p.1 = k
    · simp only [findVal, hk, if_pos, Option.some.injEq] at h
      subst h
      rcases p with ⟨k0, v0⟩
      cases hk
      exact List.mem_cons_self _ _
    · simp only [findVal, hk, if_neg, not_false_iff] at h
      exact List.mem_cons_of_mem p (findVal_mem h)

theorem findVal_of_mem {α β : Type} [DecidableEq α] {k : α} {v : β} :
    ∀ {d : List (α × β)}, (d.map Prod.fst).Nodup → (k, v) ∈ d → findVal k d = some v
  | [], _, h => by simp at h
  | p :: rest, hnd, h => by
    rw [List.map_cons, List.nodup_cons] at hnd
    rcases List.mem_cons.mp h with rfl | hmem
    · simp [findVal]
    · have hk : ¬ p.1 = k := by
        intro hh
        have hmap : p.1 ∈ rest.map Prod.fst := by
          rw [hh]
          exact List.mem_map.mpr ⟨(k, v), hmem, rfl⟩
        exact hnd.1 hmap
      rw [findVal, if_neg hk]
      exact findVal_of_mem hnd.2 hmem

/-- Invariant of the `dedup` loop over the processed prefix of the input:
entries are keyed by their record's identity key, keys are unique, and
the entry stored for a key is a processed record with that key whose
`coletado_em` is greatest among the processed records of that key. -/
def DictInv (processed : List Row) (d : List (Key × Row)) : Prop :=
  (∀ p ∈ d, key p.2 = p.1) ∧
  (d.map Prod.fst).Nodup ∧
  (∀ k r, findVal k d = some r → r ∈ processed ∧ key r = k ∧
      ∀ r' ∈ processed, key r' = k → r'.coletado_em.data ≤ r.coletado_em.data) ∧
  (∀ k, findVal k d = none → ∀ r ∈ processed, key r ≠ k)

theorem dictInv_setVal {processed : List Row} {d : List (Key × Row)}
    (hkeys : ∀ p ∈ d, key p.2 = p.1) (hnd : (d.map Prod.fst).Nodup)
    (hsome : ∀ k w, findVal k d = some w → w ∈ processed ∧ key w = k ∧
      ∀ r' ∈ processed, key r' = k → r'.coletado_em.data ≤ w.coletado_em.data)
    (hnone : ∀ k, findVal k d = none → ∀ r' ∈ processed, key r' ≠ k)
    (r : Row)
    (hmax : ∀ r' ∈ processed, key r' = key r →
      r'.coletado_em.data ≤ r.coletado_em.data) :
    DictInv (processed ++ [r]) (setVal (key r) r d) := by
  refine ⟨?_, ?_, ?_, ?_⟩
  · intro p hp
    rcases mem_setVal (key r) r d hp with rfl | hp2
    · rfl
    · exact hkeys p hp2
  · by_cases hmem : key r ∈ d.map Prod.fst
    · rw [map_fst_setVal_of_mem (key r) r d hmem]
      exact hnd
    · rw [setVal_of_not_mem (key r) r d hmem, List.map_append]
      refine List.Nodup.append hnd (by simp) ?_
      intro x hx hx2
      simp only [List.map_cons, List.map_nil, List.mem_singleton] at hx2
      subst hx2
      exact hmem hx
  · intro k w hfind
    by_cases hk : k = key r
    · subst hk
      rw [findVal_setVal_self] at hfind
      injection hfind with hw
      subst hw
      refine ⟨List.mem_append_right _ (List.mem_singleton_self r), rfl, ?_⟩
      intro r' hr' hkey'
      rcases List.mem_append.mp hr' with h1 | h1
      · exact hmax r' h1 hkey'
      · rcases List.mem_singleton.mp h1 with rfl
        exact le_refl _
    · rw [findVal_setVal_ne r hk d] at hfind
      obtain ⟨hw1, hw2, hw3⟩ := hsome k w hfind
      refine ⟨List.mem_append_left _ hw1, hw2, ?_⟩
      intro r' hr' hkey'
      rcases List.mem_append.mp hr' with h1 | h1
      · exact hw3 r' h1 hkey'
      · rcases List.mem_singleton.mp h1 with rfl
        exact absurd hkey'.symm hk
  · intro k hfind r' hr'
    have hk : k ≠ key r := by
      intro hh
      subst hh
      rw [findVal_setVal_self] at hfind
      cases hfind
    rw [findVal_setVal_ne r hk d] at hfind
    rcases List.mem_append.mp hr' with h1 | h1
    · exact hnone k hfind r' h1
    · rcases List.mem_singleton.mp h1 with rfl
      intro hkey
      exact hk hkey.symm

theorem dictInv_dedupStep {processed : List Row} {d : List (Key × Row)}
    (hinv : DictInv processed d) (r : Row) :
    DictInv (processed ++ [r]) (dedupStep d r) := by
  obtain ⟨hkeys, hnd, hsome, hnone⟩ := hinv
  cases hfind : findVal (key r) d with
  | none =>
    have hred : dedupStep d r = setVal (key r) r d := by
      unfold dedupStep
      rw [hfind]
    rw [hred]
    exact dictInv_setVal hkeys hnd hsome hnone r
      (fun r' h1 h2 => absurd h2 (hnone (key r) hfind r' h1))
  | some prev =>
    have hred : dedupStep d r
        = if prev.coletado_em.data < r.coletado_em.data then setVal (key r) r d else d := by
      unfold dedupStep
      rw [hfind]
    rw [hred]
    by_cases hlt : prev.coletado_em.data < r.coletado_em.data
    · rw [if_pos hlt]
      apply dictInv_setVal hkeys hnd hsome hnone r
      intro r' h1 h2
      exact le_trans ((hsome (key r) prev hfind).2.2 r' h1 h2) (le_of_lt hlt)
    · rw [if_neg hlt]
      refine ⟨hkeys, hnd, ?_, ?_⟩
      · intro k w hf
        obtain ⟨hw1, hw2, hw3⟩ := hsome k w hf
        refine ⟨List.mem_append_left _ hw1, hw2, ?_⟩
        intro r' hr' hk'
        rcases List.mem_append.mp hr' with h1 | h1
        · exact hw3 r' h1 hk'
        · rcases List.mem_singleton.mp h1 with rfl
          have hkk : k = key r' := hk'.symm
          subst hkk
          rw [hfind] at hf
          cases hf
          exact not_lt.mp hlt
      · intro k hf r' hr'
        rcases List.mem_append.mp hr' with h1 | h1
        · exact hnone k hf r' h1
        · rcases List.mem_singleton.mp h1 with rfl
          intro hkey
          rw [← hkey] at hf
          rw [hfind] at hf
          cases hf

theorem dictInv_foldl :
    ∀ (rows : List Row) {processed : List Row} {d : List (Key × Row)},
      DictInv processed d → DictInv (processed ++ rows) (rows.foldl dedupStep d)
  | [], _, _, hinv => by simpa using hinv
  | r :: rows, processed, d, hinv => by
    have h2 := dictInv_foldl rows (dictInv_dedupStep hinv r)
    simpa [List.append_assoc] using h2

theorem dictInv_dedupDict (rows : List Row) : DictInv rows (dedupDict rows) := by
  have h0 : DictInv [] ([] : List (Key × Row)) := by
    refine ⟨by simp, by simp, ?_, ?_⟩
    · intro k r h
      simp [findVal] at h
    · intro k _ r hr
      simp at hr
  simpa using dictInv_foldl rows h0

theorem mem_dedup_iff {rows : List Row} {r : Row} :
    r ∈ dedup rows ↔ r ∈ (dedupDict rows).map Prod.snd :=
  List.mem_insertionSort _

theorem dedup_find_exists {rows : List Row} {k : Key} (hk : ∃ r ∈ rows, key r = k) :
    ∃ w, findVal k (dedupDict rows) = some w := by
  obtain ⟨_, _, _, hnone⟩ := dictInv_dedupDict rows
  cases hfind : findVal k (dedupDict rows) with
  | none =>
    obtain ⟨r, hr, hkey⟩ := hk
    exact absurd hkey (hnone k hfind r hr)
  | some w => exact ⟨w, rfl⟩

theorem findVal_mem_dedup {rows : List Row} {k : Key} {w : Row}
    (hfind : findVal k (dedupDict rows) = some w) : w ∈ dedup rows :=
  mem_dedup_iff.mpr (List.mem_map.mpr ⟨(k, w), findVal_mem hfind, rfl⟩)

theorem dedup_value_eq {rows : List Row} {k : Key} {w r' : Row}
    (hfind : findVal k (dedupDict rows) = some w)
    (hr' : r' ∈ dedup rows) (hk' : key r' = k) : r' = w := by
  obtain ⟨hkeys, hnd, _, _⟩ := dictInv_dedupDict rows
  rcases List.mem_map.mp (mem_dedup_iff.mp hr') with ⟨p, hp, hp2⟩
  have hp1 : p.1 = k := by rw [← hkeys p hp, hp2, hk']
  have hpair : p = (k, p.2) := by
    rcases p with ⟨a, b⟩
    simp only [Prod.mk.injEq, and_true]
    exact hp1
  have hfp : findVal k (dedupDict rows) = some p.2 := by
    apply findVal_of_mem hnd
    rw [← hpair]
    exact hp
  rw [hfind] at hfp
  injection hfp with h2
  rw [← hp2, ← h2]

theorem findVal_append_of_none {α β : Type} [DecidableEq α] {k : α} :
    ∀ {d : List (α × β)} (e : List (α × β)), findVal k d = none →
      findVal k (d ++ e) = findVal k e
  | [], _, _ => rfl
  | p :: rest, e, h => by
    by_cases hk : p.1 = k
    · rw [findVal, if_pos hk] at h
      cases h
    · rw [findVal, if_neg hk] at h
      rw [List.cons_append, findVal, if_neg hk]
      exact findVal_append_of_none e h

theorem foldl_dedupStep_fresh :
    ∀ (l : List Row) (d : List (Key × Row)),
      (∀ r ∈ l, findVal (key r) d = none) → (l.map key).Nodup →
      l.foldl dedupStep d = d ++ l.map (fun r => (key r, r))
  | [], d, _, _ => by simp
  | r :: l, d, hfresh, hnd => by
    have h0 : findVal (key r) d = none := hfresh r (List.mem_cons_self r l)
    have hstep : dedupStep d r = d ++ [(key r, r)] := by
      unfold dedupStep
      rw [h0]
      exact setVal_of_not_mem _ _ d ((findVal_eq_none_iff _ d).mp h0)
    rw [List.foldl_cons, hstep]
    rw [List.map_cons, List.nodup_cons] at hnd
    have hfresh2 : ∀ r' ∈ l, findVal (key r') (d ++ [(key r, r)]) = none := by
      intro r' hr'
      have hne : ¬ key r = key r' := by
        intro hh
        exact hnd.1 (hh ▸ List.mem_map.mpr ⟨r', hr', rfl⟩)
      rw [findVal_append_of_none _ (hfresh r' (List.mem_cons_of_mem r hr'))]
      rw [findVal, if_neg hne]
      rfl
    rw [foldl_dedupStep_fresh l (d ++ [(key r, r)]) hfresh2 hnd.2]
    simp

theorem dedupDict_of_nodup_keys {H : List Row} (hnd : (H.map key).Nodup) :
    dedupDict H = H.map (fun r => (key r, r)) := by
  have h := foldl_dedupStep_fresh H [] (fun r _ => rfl) hnd
  simpa [dedupDict] using h

theorem dedup_append_of_stale (l : List Row) (r2 : Row)
    (h : ∃ r1 ∈ l, key r1 = key r2 ∧ r2.coletado_em.data ≤ r1.coletado_em.data) :
    dedup (l ++ [r2]) = dedup l := by
  obtain ⟨r1, hr1, hk, hle⟩ := h
  have hdict : dedupDict (l ++ [r2]) = dedupDict l := by
    rw [dedupDict, List.foldl_append]
    obtain ⟨_, _, hsome, hnone⟩ := dictInv_dedupDict l
    show dedupStep (dedupDict l) r2 = dedupDict l
    cases hfind : findVal (key r2) (dedupDict l) with
    | none => exact absurd hk (hnone (key r2) hfind r1 hr1)
    | some prev =>
      have hmax := (hsome (key r2) prev hfind).2.2 r1 hr1 hk
      have hnlt : ¬ prev.coletado_em.data < r2.coletado_em.data :=
        not_lt.mpr (le_trans hle hmax)
      have hred : dedupStep (dedupDict l) r2
          = if prev.coletado_em.data < r2.coletado_em.data
            then setVal (key r2) r2 (dedupDict l) else dedupDict l := by
        unfold dedupStep
        rw [hfind]
      rw [hred, if_neg hnlt]
  rw [dedup, hdict]
  rfl

/-- Invariant of `update_price_summary`'s `latest` loop: the entry
stored for a `tipo` comes from a processed `"cafe"` record of that
`tipo`, and its `ref_date` is greatest among those records. -/
def LatestInv (processed : List Row) (d : List (String × String × ℚ)) : Prop :=
  (∀ t e, findVal t d = some e →
    (∃ r ∈ processed, r.produto = "cafe" ∧ r.tipo = t ∧ effDate r = e.1 ∧ r.valor = e.2) ∧
    ∀ r ∈ processed, r.produto = "cafe" → r.tipo = t → (effDate r).data ≤ e.1.data) ∧
  (∀ t, findVal t d = none → ∀ r ∈ processed, r.produto = "cafe" → r.tipo ≠ t)

theorem latestInv_step {processed : List Row} {d : List (String × String × ℚ)}
    (hinv : LatestInv processed d) (r : Row) :
    LatestInv (processed ++ [r]) (latestStep d r) := by
  obtain ⟨hsome, hnone⟩ := hinv
  by_cases hcafe : r.produto = "cafe"
  · cases hfind : findVal r.tipo d with
    | none =>
      have hred : latestStep d r = setVal r.tipo (effDate r, r.valor) d := by
        unfold latestStep
        rw [if_pos hcafe, hfind]
      rw [hred]
      constructor
      · intro t e hf
        by_cases ht : t = r.tipo
        · subst ht
          rw [findVal_setVal_self] at hf
          injection hf with he
          subst he
          constructor
          · exact ⟨r, List.mem_append_right _ (List.mem_singleton_self r),
              hcafe, rfl, rfl, rfl⟩
          · intro r' hr' hc' ht'
            rcases List.mem_append.mp hr' with h1 | h1
            · exact absurd ht' (hnone r.tipo hfind r' h1 hc')
            · rcases List.mem_singleton.mp h1 with rfl
              exact le_refl _
        · rw [findVal_setVal_ne _ ht d] at hf
          obtain ⟨hex, hmax⟩ := hsome t e hf
          constructor
          · obtain ⟨r', h1, h2, h3, h4, h5⟩ := hex
            exact ⟨r', List.mem_append_left _ h1, h2, h3, h4, h5⟩
          · intro r' hr' hc' ht'
            rcases List.mem_append.mp hr' with h1 | h1
            · exact hmax r' h1 hc' ht'
            · rcases List.mem_singleton.mp h1 with rfl
              exact absurd ht'.symm ht
      · intro t hf r' hr' hc'
        have ht : t ≠ r.tipo := by
          intro hh
          subst hh
          rw [findVal_setVal_self] at hf
          cases hf
        rw [findVal_setVal_ne _ ht d] at hf
        rcases List.mem_append.mp hr' with h1 | h1
        · exact hnone t hf r' h1 hc'
        · rcases List.mem_singleton.mp h1 with rfl
          exact fun hh => ht hh.symm
    | some e0 =>
      by_cases hlt : e0.1.data < (effDate r).data
      · have hred : latestStep d r = setVal r.tipo (effDate r, r.valor) d := by
          unfold latestStep
          rw [if_pos hcafe, hfind]
          show (if e0.1.data < (effDate r).data
            then setVal r.tipo (effDate r, r.valor) d else d) = _
          rw [if_pos hlt]
        rw [hred]
        constructor
        · intro t e hf
          by_cases ht : t = r.tipo
          · subst ht
            rw [findVal_setVal_self] at hf
            injection hf with he
            subst he
            constructor
            · exact ⟨r, List.mem_append_right _ (List.mem_singleton_self r),
                hcafe, rfl, rfl, rfl⟩
            · intro r' hr' hc' ht'
              rcases List.mem_append.mp hr' with h1 | h1
              · exact le_trans ((hsome r.tipo e0 hfind).2 r' h1 hc' ht') (le_of_lt hlt)
              · rcases List.mem_singleton.mp h1 with rfl
                exact le_refl _
          · rw [findVal_setVal_ne _ ht d] at hf
            obtain ⟨hex, hmax⟩ := hsome t e hf
            constructor
            · obtain ⟨r', h1, h2, h3, h4, h5⟩ := hex
              exact ⟨r', List.mem_append_left _ h1, h2, h3, h4, h5⟩
            · intro r' hr' hc' ht'
              rcases List.mem_append.mp hr' with h1 | h1
              · exact hmax r' h1 hc' ht'
              · rcases List.mem_singleton.mp h1 with rfl
                exact absurd ht'.symm ht
        · intro t hf r' hr' hc'
          have ht : t ≠ r.tipo := by
            intro hh
            subst hh
            rw [findVal_setVal_self] at hf
            cases hf
          rw [findVal_setVal_ne _ ht d] at hf
          rcases List.mem_append.mp hr' with h1 | h1
          · exact hnone t hf r' h1 hc'
          · rcases List.mem_singleton.mp h1 with rfl
            exact fun hh => ht hh.symm
      · have hred : latestStep d r = d := by
          unfold latestStep
          rw [if_pos hcafe, hfind]
          show (if e0.1.data < (effDate r).data
            then setVal r.tipo (effDate r, r.valor) d else d) = _
          rw [if_neg hlt]
        rw [hred]
        constructor
        · intro t e hf
          obtain ⟨hex, hmax⟩ := hsome t e hf
          constructor
          · obtain ⟨r', h1, h2, h3, h4, h5⟩ := hex
            exact ⟨r', List.mem_append_left _ h1, h2, h3, h4, h5⟩
          · intro r' hr' hc' ht'
            rcases List.mem_append.mp hr' with h1 | h1
            · exact hmax r' h1 hc' ht'
            · rcases List.mem_singleton.mp h1 with rfl
              have he : e = e0 := by
                rw [← ht'] at hf
                rw [hfind] at hf
                injection hf with hh
                exact hh.symm
              rw [he]
              exact not_lt.mp hlt
        · intro t hf r' hr' hc'
          rcases List.mem_append.mp hr' with h1 | h1
          · exact hnone t hf r' h1 hc'
          · rcases List.mem_singleton.mp h1 with rfl
            intro ht
            rw [← ht] at hf
            rw [hfind] at hf
            cases hf
  · have hred : latestStep d r = d := by
      unfold latestStep
      rw [if_neg hcafe]
    rw [hred]
    constructor
    · intro t e hf
      obtain ⟨hex, hmax⟩ := hsome t e hf
      constructor
      · obtain ⟨r', h1, h2, h3, h4, h5⟩ := hex
        exact ⟨r', List.mem_append_left _ h1, h2, h3, h4, h5⟩
      · intro r' hr' hc' ht'
        rcases List.mem_append.mp hr' with h1 | h1
        · exact hmax r' h1 hc' ht'
        · rcases List.mem_singleton.mp h1 with rfl
          exact absurd hc' hcafe
    · intro t hf r' hr' hc'
      rcases List.mem_append.mp hr' with h1 | h1
      · exact hnone t hf r' h1 hc'
      · rcases List.mem_singleton.mp h1 with rfl
        exact absurd hc' hcafe

theorem latestInv_foldl :
    ∀ (rows : List Row) {processed : List Row} {d : List (String × String × ℚ)},
      LatestInv processed d → LatestInv (processed ++ rows) (rows.foldl latestStep d)
  | [], _, _, hinv => by simpa using hinv
  | r :: rows, processed, d, hinv => by
    have h2 := latestInv_foldl rows (latestInv_step hinv r)
    simpa [List.append_assoc] using h2

theorem latestInv_latestMap (rows : List Row) : LatestInv rows (latestMap rows) := by
  have h0 : LatestInv [] ([] : List (String × String × ℚ)) := by
    constructor
    · intro t e h
      simp [findVal] at h
    · intro t _ r hr
      simp at hr
  simpa using latestInv_foldl rows h0

theorem latest_find_exists {rows : List Row} {t : String}
    (h : ∃ r ∈ rows, r.produto = "cafe" ∧ r.tipo = t) :
    ∃ e, findVal t (latestMap rows) = some e := by
  obtain ⟨_, hnone⟩ := latestInv_latestMap rows
  cases hfind : findVal t (latestMap rows) with
  | none =>
    obtain ⟨r, hr, hc, ht⟩ := h
    exact absurd ht (hnone t hfind r hr hc)
  | some e => exact ⟨e, rfl⟩

theorem applyDate_arabica (cafe : CafeObj) (o : Option String) :
    (applyDate cafe o).arabica = cafe.arabica := by
  cases o with
  | none => rfl
  | some dd =>
    show (if dd = "" then cafe
      else CafeObj.mk (some dd) cafe.arabica cafe.robusta cafe.restCafe).arabica = cafe.arabica
    split_ifs <;> rfl

theorem applyDate_robusta (cafe : CafeObj) (o : Option String) :
    (applyDate cafe o).robusta = cafe.robusta := by
  cases o with
  | none => rfl
  | some dd =>
    show (if dd = "" then cafe
      else CafeObj.mk (some dd) cafe.arabica cafe.robusta cafe.restCafe).robusta = cafe.robusta
    split_ifs <;> rfl

theorem applyDate_restCafe (cafe : CafeObj) (o : Option String) :
    (applyDate cafe o).restCafe = cafe.restCafe := by
  cases o with
  | none => rfl
  | some dd =>
    show (if dd = "" then cafe
      else CafeObj.mk (some dd) cafe.arabica cafe.robusta cafe.restCafe).restCafe = cafe.restCafe
    split_ifs <;> rfl

theorem applyDate_some_ne (cafe : CafeObj) {dd : String} (h : dd ≠ "") :
    (applyDate cafe (some dd)).date = some dd := by
  show (if dd = "" then cafe
    else CafeObj.mk (some dd) cafe.arabica cafe.robusta cafe.restCafe).date = some dd
  rw [if_neg h]

theorem applyArabica_robusta (cafe : CafeObj) (o : Option (String × ℚ)) :
    (applyArabica cafe o).robusta = cafe.robusta := by
  cases o <;> rfl

theorem applyArabica_restCafe (cafe : CafeObj) (o : Option (String × ℚ)) :
    (applyArabica cafe o).restCafe = cafe.restCafe := by
  cases o <;> rfl

theorem applyArabica_date (cafe : CafeObj) (o : Option (String × ℚ)) :
    (applyArabica cafe o).date = cafe.date := by
  cases o <;> rfl

theorem applyRobusta_arabica (cafe : CafeObj) (o : Option (String × ℚ)) :
    (applyRobusta cafe o).arabica = cafe.arabica := by
  cases o <;> rfl

theorem applyRobusta_restCafe (cafe : CafeObj) (o : Option (String × ℚ)) :
    (applyRobusta cafe o).restCafe = cafe.restCafe := by
  cases o <;> rfl

theorem applyRobusta_date (cafe : CafeObj) (o : Option (String × ℚ)) :
    (applyRobusta cafe o).date = cafe.date := by
  cases o <;> rfl

theorem sortLE_iff {a b : Row} : sortLE a b ↔
    ((a.referente_a.getD "").data < (b.referente_a.getD "").data ∨
      (a.referente_a.getD "" = b.referente_a.getD "" ∧
        (a.tipo.data < b.tipo.data ∨
          (a.tipo = b.tipo ∧ a.coletado_em.data ≤ b.coletado_em.data)))) := by
  unfold sortLE sortKey
  rw [Prod.Lex.le_iff]
  constructor
  · rintro (h | ⟨h1, h2⟩)
    · exact Or.inl h
    · refine Or.inr ⟨string_data_inj h1, ?_⟩
      have h2l : toLex (a.tipo.data, a.coletado_em.data)
          ≤ toLex (b.tipo.data, b.coletado_em.data) := h2
      rw [Prod.Lex.le_iff] at h2l
      rcases h2l with h | ⟨h3, h4⟩
      · exact Or.inl h
      · exact Or.inr ⟨string_data_inj h3, h4⟩
  · rintro (h | ⟨h1, h2⟩)
    · exact Or.inl h
    · refine Or.inr ⟨congrArg String.data h1, ?_⟩
      show toLex (a.tipo.data, a.coletado_em.data)
          ≤ toLex (b.tipo.data, b.coletado_em.data)
      rw [Prod.Lex.le_iff]
      rcases h2 with h | ⟨h3, h4⟩
      · exact Or.inl h
      · exact Or.inr ⟨congrArg String.data h3, h4⟩

end Cepea

namespace ScrapePrices

theorem mem_update_history {history : List SRow} {ap cp : ℚ} {ra ts : String} {r : SRow} :
    r ∈ update_history history ap cp ra ts ↔
      r ∈ combined history ap cp ra ts ∧
        r.referente_a ∈ keep_dates (combined history ap cp ra ts) := by
  unfold update_history
  rw [List.mem_flatMap]
  constructor
  · rintro ⟨d, hd, hr⟩
    rw [List.mem_insertionSort] at hr
    rcases List.mem_filter.mp hr with ⟨h1, h2⟩
    have h3 : r.referente_a = d := of_decide_eq_true h2
    exact ⟨h1, h3 ▸ hd⟩
  · rintro ⟨h1, h2⟩
    refine ⟨r.referente_a, h2, ?_⟩
    rw [List.mem_insertionSort]
    exact List.mem_filter.mpr ⟨h1, decide_eq_true rfl⟩

theorem keep_dates_length_le (l : List SRow) : (keep_dates l).length ≤ 10 := by
  unfold keep_dates
  rw [List.length_take]
  exact min_le_left _ _

theorem keep_dates_length_eq (l : List SRow) (h : 10 < (histDates l).length) :
    (keep_dates l).length = 10 := by
  unfold keep_dates
  rw [List.length_take, List.length_insertionSort]
  exact Nat.min_eq_left (le_of_lt h)

theorem dropped_lt_kept {l : List SRow} {d d' : String}
    (hd : d ∈ histDates l) (hnk : d ∉ keep_dates l) (hd' : d' ∈ keep_dates l) :
    d.data < d'.data := by
  have hsort : List.Sorted dateGE (List.insertionSort dateGE (histDates l)) :=
    List.sorted_insertionSort dateGE (histDates l)
  have hperm : List.Perm (List.insertionSort dateGE (histDates l)) (histDates l) :=
    List.perm_insertionSort dateGE (histDates l)
  have hnodup : (List.insertionSort dateGE (histDates l)).Nodup :=
    hperm.nodup_iff.mpr (List.nodup_dedup _)
  have hsplit := List.take_append_drop 10 (List.insertionSort dateGE (histDates l))
  have hmem : d ∈ List.insertionSort dateGE (histDates l) := hperm.mem_iff.mpr hd
  have hdrop : d ∈ (List.insertionSort dateGE (histDates l)).drop 10 := by
    rcases List.mem_append.mp (by rw [hsplit]; exact hmem) with h1 | h1
    · exact absurd h1 hnk
    · exact h1
  have hpair : List.Pairwise dateGE
      ((List.insertionSort dateGE (histDates l)).take 10 ++
        (List.insertionSort dateGE (histDates l)).drop 10) := by
    rw [hsplit]
    exact hsort
  have hle : dateGE d' d := (List.pairwise_append.mp hpair).2.2 d' hd' d hdrop
  have hdisj : List.Disjoint ((List.insertionSort dateGE (histDates l)).take 10)
      ((List.insertionSort dateGE (histDates l)).drop 10) := by
    apply List.disjoint_of_nodup_append
    rw [hsplit]
    exact hnodup
  have hne : d.data ≠ d'.data := by
    intro hh
    exact hdisj hd' (string_data_inj hh.symm ▸ hdrop)
  exact lt_of_le_of_ne hle hne

theorem update_history_sub {history : List SRow} {ap cp : ℚ} {ra ts : String} {x : String}
    (hx : x ∈ (update_history history ap cp ra ts).map fun r => r.referente_a) :
    x ∈ keep_dates (combined history ap cp ra ts) := by
  rcases List.mem_map.mp hx with ⟨r, hr, hx2⟩
  exact hx2 ▸ (mem_update_history.mp hr).2

theorem update_history_dates_bound (history : List SRow) (ap cp : ℚ) (ra ts : String) :
    (((update_history history ap cp ra ts).map fun r => r.referente_a).dedup).length ≤ 10 := by
  have hnd : (((update_history history ap cp ra ts).map fun r => r.referente_a).dedup).Nodup :=
    List.nodup_dedup _
  have hsub : ∀ x ∈ ((update_history history ap cp ra ts).map fun r => r.referente_a).dedup,
      x ∈ keep_dates (combined history ap cp ra ts) :=
    fun x hx => update_history_sub (List.mem_dedup.mp hx)
  calc (((update_history history ap cp ra ts).map fun r => r.referente_a).dedup).length
      = (((update_history history ap cp ra ts).map fun r => r.referente_a).dedup).toFinset.card :=
        (List.toFinset_card_of_nodup hnd).symm
    _ ≤ (keep_dates (combined history ap cp ra ts)).toFinset.card := by
        apply Finset.card_le_card
        intro x hx
        rw [List.mem_toFinset] at hx ⊢
        exact hsub x hx
    _ ≤ (keep_dates (combined history ap cp ra ts)).length := List.toFinset_card_le _
    _ ≤ 10 := keep_dates_length_le _

end ScrapePrices

section Claims

open Cepea ScrapePrices Examples

/-- Claim C1, counterexample: merging eleven candidates bearing eleven
distinct reference dates, the `dedup` merge of `coletar_cafe_cepea.py`
returns a history with eleven distinct effective dates, so the
ten-date retention bound does not hold for this merge. -/
theorem claim_C1_counterexample :
    ¬ (((dedup elevenRows).map effDate).dedup.length ≤ 10) := by
  decide

/-- Claim C1, amended: the `dedup` merge of `coletar_cafe_cepea.py`
performs no retention trimming (see the counterexample); the ten-date
retention window is enforced by `update_history` of `scrape_prices.py`:
its result has at most ten distinct dates, a record survives exactly
when its date is among the kept dates, every dropped date is strictly
older (by string, hence calendar, order) than every kept date, and when
more than ten distinct dates are present exactly ten are kept. -/
theorem claim_C1_amended (history : List SRow) (ap cp : ℚ) (ra ts : String) :
    ((update_history history ap cp ra ts).map fun r => r.referente_a).dedup.length ≤ 10 ∧
    (∀ r : SRow, r ∈ update_history history ap cp ra ts ↔
      (r ∈ combined history ap cp ra ts ∧
        r.referente_a ∈ keep_dates (combined history ap cp ra ts))) ∧
    (∀ d ∈ histDates (combined history ap cp ra ts),
      d ∉ keep_dates (combined history ap cp ra ts) →
      ∀ d' ∈ keep_dates (combined history ap cp ra ts), d.data < d'.data) ∧
    (10 < (histDates (combined history ap cp ra ts)).length →
      (keep_dates (combined history ap cp ra ts)).length = 10) :=
  ⟨update_history_dates_bound history ap cp ra ts,
   fun _ => mem_update_history,
   fun _ hd hnk _ hd' => dropped_lt_kept hd hnk hd',
   keep_dates_length_eq _⟩

/-- Claim C2: for any identity key present in the merge input, the
`dedup` output contains exactly one record of that key; it is an input
record, and its `coletado_em` is greatest (lexicographically) among the
input records of that key. -/
theorem claim_C2 (rows : List Row) (k : Key) (hk : ∃ r ∈ rows, key r = k) :
    ∃ w, w ∈ dedup rows ∧ key w = k ∧ w ∈ rows ∧
      (∀ r' ∈ rows, key r' = k → r'.coletado_em.data ≤ w.coletado_em.data) ∧
      (∀ r' ∈ dedup rows, key r' = k → r' = w) := by
  obtain ⟨w, hfind⟩ := dedup_find_exists hk
  obtain ⟨_, _, hsome, _⟩ := dictInv_dedupDict rows
  obtain ⟨hw1, hw2, hw3⟩ := hsome k w hfind
  exact ⟨w, findVal_mem_dedup hfind, hw2, hw1, hw3,
    fun r' h1 h2 => dedup_value_eq hfind h1 h2⟩

/-- Claim C2, witness: the merge of the spec's §8 example at the key
`("cafe", "arabica", "2025-09-04")`. -/
theorem claim_C2_witness :
    ∃ w, w ∈ dedup [histRow, candRow] ∧
      key w = ("cafe", "arabica", "2025-09-04") ∧ w ∈ [histRow, candRow] ∧
      (∀ r' ∈ [histRow, candRow], key r' = ("cafe", "arabica", "2025-09-04") →
        r'.coletado_em.data ≤ w.coletado_em.data) ∧
      (∀ r' ∈ dedup [histRow, candRow],
        key r' = ("cafe", "arabica", "2025-09-04") → r' = w) :=
  claim_C2 [histRow, candRow] ("cafe", "arabica", "2025-09-04")
    ⟨candRow, by decide, by decide⟩

/-- Claim C3: merging an empty candidate list into a history that is
deduplicated (no two records share an identity key), trimmed to at most
ten distinct effective dates, and in the persisted sort order returns
the history unchanged. -/
theorem claim_C3 (H : List Row)
    (hdedup : (H.map key).Nodup)
    (hsorted : List.Sorted sortLE H)
    (htrim : ((H.map effDate).dedup).length ≤ 10) :
    dedup (H ++ []) = H := by
  rw [List.append_nil, dedup, dedupDict_of_nodup_keys hdedup, List.map_map]
  have hmap : (Prod.snd ∘ fun r => (key r, r)) = id := rfl
  rw [hmap, List.map_id]
  exact hsorted.insertionSort_eq

/-- Claim C3, witness: a concrete deduplicated, trimmed, sorted
two-record history is returned unchanged. -/
theorem claim_C3_witness : dedup (twoRowHistory ++ []) = twoRowHistory :=
  claim_C3 twoRowHistory (by decide) (by decide) (by decide)

/-- Claim C5: a record without `referente_a` is keyed by the first ten
characters of its own `coletado_em`; two such records of the same
product and variant collected on the same calendar day deduplicate to a
single record, while on different days both survive. -/
theorem claim_C5 (r1 r2 : Row)
    (h1 : r1.referente_a = none) (h2 : r2.referente_a = none)
    (hp : r1.produto = r2.produto) (ht : r1.tipo = r2.tipo) :
    key r1 = (r1.produto, r1.tipo, r1.coletado_em.take 10) ∧
    (r1.coletado_em.take 10 = r2.coletado_em.take 10 →
      (dedup [r1, r2]).length = 1) ∧
    (r1.coletado_em.take 10 ≠ r2.coletado_em.take 10 →
      (dedup [r1, r2]).length = 2 ∧ r1 ∈ dedup [r1, r2] ∧ r2 ∈ dedup [r1, r2]) := by
  refine ⟨by simp [key, effDate, h1], ?_, ?_⟩
  · intro hsame
    have hkey : key r1 = key r2 := by
      simp [key, effDate, h1, h2, hp, ht, hsame]
    have hfind : findVal (key r2) [(key r1, r1)] = some r1 := by
      simp [findVal, hkey]
    have hdict : (dedupDict [r1, r2]).length = 1 := by
      show (dedupStep (dedupStep [] r1) r2).length = 1
      have hstep1 : dedupStep [] r1 = [(key r1, r1)] := rfl
      rw [hstep1]
      have hred : dedupStep [(key r1, r1)] r2
          = if r1.coletado_em.data < r2.coletado_em.data
            then setVal (key r2) r2 [(key r1, r1)] else [(key r1, r1)] := by
        unfold dedupStep
        rw [hfind]
      rw [hred]
      by_cases hlt : r1.coletado_em.data < r2.coletado_em.data
      · rw [if_pos hlt]
        simp [setVal, hkey]
      · rw [if_neg hlt]
        rfl
    rw [dedup, List.length_insertionSort, List.length_map]
    exact hdict
  · intro hdiff
    have hkey : ¬ (key r1 = key r2) := by
      simp only [key, effDate, h1, h2, Prod.mk.injEq]
      intro hcon
      exact hdiff hcon.2.2
    have hfind : findVal (key r2) [(key r1, r1)] = none := by
      simp [findVal, hkey]
    have hdict : dedupDict [r1, r2] = [(key r1, r1), (key r2, r2)] := by
      show dedupStep (dedupStep [] r1) r2 = _
      have hstep1 : dedupStep [] r1 = [(key r1, r1)] := rfl
      rw [hstep1]
      have hred : dedupStep [(key r1, r1)] r2 = setVal (key r2) r2 [(key r1, r1)] := by
        unfold dedupStep
        rw [hfind]
      rw [hred]
      simp [setVal, hkey]
    refine ⟨?_, ?_, ?_⟩
    · rw [dedup, List.length_insertionSort, List.length_map, hdict]
      rfl
    · rw [mem_dedup_iff, hdict]
      simp
    · rw [mem_dedup_iff, hdict]
      simp

/-- Claim C5, witness: two undated arabica records scraped on
2025-09-05 collapse to one; an undated record scraped on 2025-09-06
survives next to one scraped on 2025-09-05. -/
theorem claim_C5_witness :
    (key undatedSameDayA = ("cafe", "arabica", "2025-09-05") ∧
      (dedup [undatedSameDayA, undatedSameDayB]).length = 1) ∧
    (dedup [undatedSameDayA, undatedOtherDay]).length = 2 :=
  ⟨⟨(claim_C5 undatedSameDayA undatedSameDayB rfl rfl rfl rfl).1,
    (claim_C5 undatedSameDayA undatedSameDayB rfl rfl rfl rfl).2.1 (by decide)⟩,
   ((claim_C5 undatedSameDayA undatedOtherDay rfl rfl rfl rfl).2.2 (by decide)).1⟩

/-- Claim C4, counterexample: the merge output is not sorted by the
claimed key — the undated record (effective date 2025-09-05, the date
of its own collection) is placed before the record dated 2020-01-01,
because the code's sort key uses the empty string, not the effective
date, for records without `referente_a`. -/
theorem claim_C4_counterexample :
    ¬ List.Sorted specClaimedLE (dedup [undatedRow, datedRow]) := by
  decide

/-- Claim C4, amended: the history returned by `dedup` is sorted
ascending by the triple (reference date or the empty string, variant,
collection timestamp) — a record without a reference date sorts under
the empty string rather than under its collection date. -/
theorem claim_C4_amended (rows : List Row) :
    (dedup rows).Pairwise (fun a b =>
      (a.referente_a.getD "").data < (b.referente_a.getD "").data ∨
        (a.referente_a.getD "" = b.referente_a.getD "" ∧
          (a.tipo.data < b.tipo.data ∨
            (a.tipo = b.tipo ∧ a.coletado_em.data ≤ b.coletado_em.data)))) := by
  have hs : List.Sorted sortLE (dedup rows) :=
    List.sorted_insertionSort sortLE ((dedupDict rows).map Prod.snd)
  exact List.Pairwise.imp (fun hab => sortLE_iff.mp hab) hs

/-- Claim C6: every variant absent from the current history keeps its
previously persisted summary value — a prior `robusta` value survives a
run that scraped only arabica, and a prior `arabica` value survives a
run that scraped only conillon — and everything in the previous
summary document outside the `cafe` fields the operation sets is left
unchanged. -/
theorem claim_C6 (rows : List Row) (prev : Summary)
    (hnoc : ∀ r ∈ rows, ¬ (r.produto = "cafe" ∧ r.tipo = "conillon")) :
    (update_price_summary rows prev).cafe.robusta = prev.cafe.robusta ∧
    (∀ rows2 : List Row, (∀ r ∈ rows2, ¬ (r.produto = "cafe" ∧ r.tipo = "arabica")) →
      (update_price_summary rows2 prev).cafe.arabica = prev.cafe.arabica) ∧
    (∀ rows2 : List Row,
      (update_price_summary rows2 prev).restTop = prev.restTop ∧
      (update_price_summary rows2 prev).cafe.restCafe = prev.cafe.restCafe) := by
  refine ⟨?_, ?_, ?_⟩
  · have hc : findVal "conillon" (latestMap rows) = none := by
      cases hf : findVal "conillon" (latestMap rows) with
      | none => rfl
      | some e =>
        obtain ⟨⟨r, hr, hc1, hc2, _⟩, _⟩ := (latestInv_latestMap rows).1 "conillon" e hf
        exact absurd ⟨hc1, hc2⟩ (hnoc r hr)
    show (applyRobusta _ (findVal "conillon" (latestMap rows))).robusta = _
    rw [hc]
    show (applyArabica _ _).robusta = _
    rw [applyArabica_robusta, applyDate_robusta]
  · intro rows2 hnoa
    have ha : findVal "arabica" (latestMap rows2) = none := by
      cases hf : findVal "arabica" (latestMap rows2) with
      | none => rfl
      | some e =>
        obtain ⟨⟨r, hr, ha1, ha2, _⟩, _⟩ := (latestInv_latestMap rows2).1 "arabica" e hf
        exact absurd ⟨ha1, ha2⟩ (hnoa r hr)
    show (applyRobusta (applyArabica _ (findVal "arabica" (latestMap rows2)))
        (findVal "conillon" (latestMap rows2))).arabica = _
    rw [applyRobusta_arabica, ha]
    show (applyDate _ _).arabica = _
    rw [applyDate_arabica]
  · intro rows2
    refine ⟨rfl, ?_⟩
    show (applyRobusta _ _).restCafe = _
    rw [applyRobusta_restCafe, applyArabica_restCafe, applyDate_restCafe]

/-- Claim C6, witness: on top of a previously persisted summary, an
arabica-only history keeps the prior `robusta` value, a conillon-only
history keeps the prior `arabica` value, and the unrelated parts of
the document are kept either way. -/
theorem claim_C6_witness :
    (update_price_summary [arabicaRow] prevSummary).cafe.robusta
        = prevSummary.cafe.robusta ∧
    (update_price_summary [conillonRow] prevSummary).cafe.arabica
        = prevSummary.cafe.arabica ∧
    (update_price_summary [arabicaRow] prevSummary).restTop = prevSummary.restTop ∧
    (update_price_summary [arabicaRow] prevSummary).cafe.restCafe
        = prevSummary.cafe.restCafe :=
  ⟨(claim_C6 [arabicaRow] prevSummary (by decide)).1,
   (claim_C6 [arabicaRow] prevSummary (by decide)).2.1 [conillonRow] (by decide),
   ((claim_C6 [arabicaRow] prevSummary (by decide)).2.2 [arabicaRow]).1,
   ((claim_C6 [arabicaRow] prevSummary (by decide)).2.2 [arabicaRow]).2⟩

/-- Claim C7: when both variants are present in the history, each
variant's summary price is the value of that variant's record of
maximal effective date, the summary's `cafe` date is the maximum of the
two variants' dates (when it is not the empty string, which Python's
`if date:` would skip), and each variant's own entry in `latest` keeps
its own true date and value even when the two dates disagree. -/
theorem claim_C7 (rows : List Row) (prev : Summary)
    (ha : ∃ r ∈ rows, r.produto = "cafe" ∧ r.tipo = "arabica")
    (hc : ∃ r ∈ rows, r.produto = "cafe" ∧ r.tipo = "conillon") :
    ∃ da va dc vc,
      findVal "arabica" (latestMap rows) = some (da, va) ∧
      findVal "conillon" (latestMap rows) = some (dc, vc) ∧
      (∃ r ∈ rows, r.produto = "cafe" ∧ r.tipo = "arabica" ∧
        effDate r = da ∧ r.valor = va) ∧
      (∀ r ∈ rows, r.produto = "cafe" → r.tipo = "arabica" →
        (effDate r).data ≤ da.data) ∧
      (∃ r ∈ rows, r.produto = "cafe" ∧ r.tipo = "conillon" ∧
        effDate r = dc ∧ r.valor = vc) ∧
      (∀ r ∈ rows, r.produto = "cafe" → r.tipo = "conillon" →
        (effDate r).data ≤ dc.data) ∧
      (update_price_summary rows prev).cafe.arabica = some va ∧
      (update_price_summary rows prev).cafe.robusta = some vc ∧
      ((if dc.data ≤ da.data then da else dc) ≠ "" →
        (update_price_summary rows prev).cafe.date
            = some (if dc.data ≤ da.data then da else dc) ∧
        da.data ≤ (if dc.data ≤ da.data then da else dc).data ∧
        dc.data ≤ (if dc.data ≤ da.data then da else dc).data) := by
  obtain ⟨ea, hfa⟩ := latest_find_exists ha
  obtain ⟨ec, hfc⟩ := latest_find_exists hc
  obtain ⟨hexa, hmaxa⟩ := (latestInv_latestMap rows).1 "arabica" ea hfa
  obtain ⟨hexc, hmaxc⟩ := (latestInv_latestMap rows).1 "conillon" ec hfc
  refine ⟨ea.1, ea.2, ec.1, ec.2, by rw [hfa], by rw [hfc], hexa, hmaxa, hexc, hmaxc,
    ?_, ?_, ?_⟩
  · show (applyRobusta (applyArabica _ (findVal "arabica" (latestMap rows)))
        (findVal "conillon" (latestMap rows))).arabica = some ea.2
    rw [hfa, hfc, applyRobusta_arabica]
    rfl
  · show (applyRobusta _ (findVal "conillon" (latestMap rows))).robusta = some ec.2
    rw [hfc]
    rfl
  · intro hne
    refine ⟨?_, ?_, ?_⟩
    · show (applyRobusta (applyArabica (applyDate prev.cafe
          (summaryDate (findVal "arabica" (latestMap rows))
            (findVal "conillon" (latestMap rows))))
          (findVal "arabica" (latestMap rows)))
          (findVal "conillon" (latestMap rows))).date
        = some (if ec.1.data ≤ ea.1.data then ea.1 else ec.1)
      rw [hfa, hfc, applyRobusta_date, applyArabica_date]
      show (applyDate prev.cafe
          (some (if ec.1.data ≤ ea.1.data then ea.1 else ec.1))).date = _
      exact applyDate_some_ne prev.cafe hne
    · by_cases hle : ec.1.data ≤ ea.1.data
      · rw [if_pos hle]
      · rw [if_neg hle]
        exact le_of_lt (not_le.mp hle)
    · by_cases hle : ec.1.data ≤ ea.1.data
      · rw [if_pos hle]
        exact hle
      · rw [if_neg hle]

/-- Claim C7, witness: a history in which arabica is dated 2025-09-05
and conillon 2025-09-04 — the summary carries each variant's own value,
and the `cafe` date is the later of the two. -/
theorem claim_C7_witness :
    ∃ da va dc vc,
      findVal "arabica" (latestMap [arabicaRow, conillonRow]) = some (da, va) ∧
      findVal "conillon" (latestMap [arabicaRow, conillonRow]) = some (dc, vc) ∧
      (∃ r ∈ [arabicaRow, conillonRow], r.produto = "cafe" ∧ r.tipo = "arabica" ∧
        effDate r = da ∧ r.valor = va) ∧
      (∀ r ∈ [arabicaRow, conillonRow], r.produto = "cafe" → r.tipo = "arabica" →
        (effDate r).data ≤ da.data) ∧
      (∃ r ∈ [arabicaRow, conillonRow], r.produto = "cafe" ∧ r.tipo = "conillon" ∧
        effDate r = dc ∧ r.valor = vc) ∧
      (∀ r ∈ [arabicaRow, conillonRow], r.produto = "cafe" → r.tipo = "conillon" →
        (effDate r).data ≤ dc.data) ∧
      (update_price_summary [arabicaRow, conillonRow] prevSummary).cafe.arabica
          = some va ∧
      (update_price_summary [arabicaRow, conillonRow] prevSummary).cafe.robusta
          = some vc ∧
      ((if dc.data ≤ da.data then da else dc) ≠ "" →
        (update_price_summary [arabicaRow, conillonRow] prevSummary).cafe.date
            = some (if dc.data ≤ da.data then da else dc) ∧
        da.data ≤ (if dc.data ≤ da.data then da else dc).data ∧
        dc.data ≤ (if dc.data ≤ da.data then da else dc).data) :=
  claim_C7 [arabicaRow, conillonRow] prevSummary
    ⟨arabicaRow, by decide, by decide, by decide⟩
    ⟨conillonRow, by decide, by decide, by decide⟩

/-- Claim C8, counterexample: a persisted history file whose content is
the JSON list `[{}]` — a sequence containing one object that is not a
well-formed record — is loaded as is, and the merge aborts with an
error (`KeyError` on `coletado_em`) instead of proceeding as a cold
start. -/
theorem claim_C8_counterexample :
    Cepea.mainMerge (Cepea.HistDoc.jlist [Cepea.Item.emptyObj]) [] = Except.error () :=
  rfl

/-- Claim C8, amended: a missing history file, un-parseable history
content, and parseable content that is not a list all load as the empty
history, and the merge proceeds as a cold start over the candidates
alone; only a parseable list containing an ill-formed record aborts the
run (see the counterexample). -/
theorem claim_C8_amended (cands : List Row) :
    Cepea.mainMerge Cepea.HistDoc.missing cands = Except.ok (dedup cands) ∧
    Cepea.mainMerge Cepea.HistDoc.unparseable cands = Except.ok (dedup cands) ∧
    Cepea.mainMerge Cepea.HistDoc.nonList cands = Except.ok (dedup cands) :=
  ⟨rfl, rfl, rfl⟩

/-- Claim C9: the market-open flag is true exactly on weekdays
(Monday = 0 through Friday = 4) with the local hour in `[8, 17)`; in
particular Wednesday at hour 10 is open, Wednesday at hour 19 is
closed, and Saturday at hour 10 is closed. -/
theorem claim_C9 :
    (∀ dt : PyDatetime,
      is_market_open dt = true ↔ (dt.weekday < 5 ∧ 8 ≤ dt.hour ∧ dt.hour < 17)) ∧
    is_market_open ⟨2, 10⟩ = true ∧
    is_market_open ⟨2, 19⟩ = false ∧
    is_market_open ⟨5, 10⟩ = false := by
  refine ⟨?_, by decide, by decide, by decide⟩
  intro dt
  unfold is_market_open
  simp [Bool.and_eq_true, decide_eq_true_iff, and_assoc]

/-- Claim C10: when a later record of the merge input shares its
identity key with an earlier record and their `coletado_em` timestamps
are exactly equal, the later record does not displace the earlier one —
the stored record is replaced only on a strictly greater timestamp. -/
theorem claim_C10 (r1 r2 : Row) (l1 l2 : List Row)
    (hkey : key r1 = key r2) (htie : r2.coletado_em = r1.coletado_em) :
    dedup ((l1 ++ r1 :: l2) ++ [r2]) = dedup (l1 ++ r1 :: l2) ∧
    dedup [r1, r2] = [r1] := by
  have hle : r2.coletado_em.data ≤ r1.coletado_em.data := by rw [htie]
  constructor
  · exact dedup_append_of_stale (l1 ++ r1 :: l2) r2
      ⟨r1, by simp, hkey, hle⟩
  · have h1 : dedup ([r1] ++ [r2]) = dedup [r1] :=
      dedup_append_of_stale [r1] r2 ⟨r1, by simp, hkey, hle⟩
    have h2 : dedup [r1] = [r1] := rfl
    rw [show ([r1, r2] : List Row) = [r1] ++ [r2] from rfl, h1, h2]

/-- Claim C10, witness: two records of the same key and the same
collection timestamp, differing in value — the first stays. -/
theorem claim_C10_witness :
    dedup (([] ++ histRow :: []) ++ [⟨"cafe", "arabica", "BRL", 9999, some "2025-09-04",
        "u2", "2025-09-04T18:00:00+00:00"⟩])
      = dedup ([] ++ histRow :: []) ∧
    dedup [histRow, ⟨"cafe", "arabica", "BRL", 9999, some "2025-09-04",
        "u2", "2025-09-04T18:00:00+00:00"⟩] = [histRow] :=
  claim_C10 histRow
    ⟨"cafe", "arabica", "BRL", 9999, some "2025-09-04", "u2", "2025-09-04T18:00:00+00:00"⟩
    [] [] (by decide) (by decide)

end Claims
